import Mathlib

/-
Verification of the ainance trading-signal core.

The embedding models, over exact rationals:
  * an IEEE-style value type `F` (finite / +inf / -inf / NaN) capturing the
    float division edge cases the pandas pipeline relies on;
  * the feature assembler `calculate_features` of
    python-functions/model/predict_with_real_data.py (per-symbol technical
    indicators read at the latest bar, NaN replaced by documented defaults);
  * the rule-based scorer of simple-ml-service.py;
  * the classifier-backed signal emitters of ml-service/main.py,
    python-functions/model/predict_with_real_data.py and
    python-functions/model/predict.py.

Rolling standard deviation is sqrt of an exact rational variance; since sqrt
is irrational in general, the assembler is parametrised by the sqrt map
`sq : ℚ → ℚ` and theorems assume only the properties of real sqrt they need.
-/

/-- IEEE-style float value over exact rationals: finite, infinities, NaN.
Rounding is idealised away; only the special values matter for the pipeline. -/
inductive F where
  | fin : ℚ → F
  | pinf : F
  | ninf : F
  | nan : F
deriving DecidableEq

def F.isFinite : F → Bool
  | F.fin _ => true
  | _ => false

def F.toQ : F → ℚ
  | F.fin q => q
  | _ => 0

def F.neg : F → F
  | F.fin q => F.fin (-q)
  | F.pinf => F.ninf
  | F.ninf => F.pinf
  | F.nan => F.nan

def F.add : F → F → F
  | F.fin a, F.fin b => F.fin (a + b)
  | F.fin _, F.pinf => F.pinf
  | F.pinf, F.fin _ => F.pinf
  | F.fin _, F.ninf => F.ninf
  | F.ninf, F.fin _ => F.ninf
  | F.pinf, F.pinf => F.pinf
  | F.ninf, F.ninf => F.ninf
  | _, _ => F.nan

def F.sub (a b : F) : F := F.add a (F.neg b)

def F.div : F → F → F
  | F.fin a, F.fin b =>
      if b = 0 then (if a = 0 then F.nan else if 0 < a then F.pinf else F.ninf)
      else F.fin (a / b)
  | F.fin _, F.pinf => F.fin 0
  | F.fin _, F.ninf => F.fin 0
  | F.pinf, F.fin b => if 0 ≤ b then F.pinf else F.ninf
  | F.ninf, F.fin b => if 0 ≤ b then F.ninf else F.pinf
  | _, _ => F.nan

/-- Strict `<` on floats: any comparison against NaN is false. -/
def F.ltb : F → F → Bool
  | F.fin a, F.fin b => a < b
  | F.fin _, F.pinf => true
  | F.ninf, F.fin _ => true
  | F.ninf, F.pinf => true
  | _, _ => false

/-- Division of two finite floats, with the IEEE zero-denominator outcomes
(`0/0 = NaN`, `x/0 = ±inf`), as numpy produces for pandas series. -/
def fdiv (a b : ℚ) : F :=
  if b = 0 then (if a = 0 then F.nan else if 0 < a then F.pinf else F.ninf)
  else F.fin (a / b)

/-- `float(x) if not pd.isna(x) else d`: NaN falls back to the default. -/
def unNan (x : F) (d : ℚ) : F :=
  match x with
  | F.nan => F.fin d
  | y => y

/-- One OHLCV bar (`open` is a Lean keyword, hence `opn`). -/
structure Bar where
  timestamp : String
  opn : ℚ
  high : ℚ
  low : ℚ
  close : ℚ
  volume : ℚ
deriving DecidableEq

/-! List helpers embedding the pandas rolling/last-value operations at the
latest index of a series. -/

/-- Last `w` elements: the window `rolling(w)` reads at the final index. -/
def lastN {α : Type} (w : ℕ) (xs : List α) : List α := xs.drop (xs.length - w)

/-- `.iloc[-1]` of a series of rationals. -/
def lastQ (xs : List ℚ) : ℚ := xs.getLastD 0

/-- Mean of a list (`rolling(w).mean()` over the final window). -/
def meanQ (xs : List ℚ) : ℚ := xs.sum / (xs.length : ℚ)

/-- Sample variance with `ddof=1`, the square of pandas `rolling(w).std()`. -/
def sampleVar (xs : List ℚ) : ℚ :=
  (xs.map (fun x => (x - meanQ xs) ^ 2)).sum / ((xs.length : ℚ) - 1)

/-- `rolling(w).min()` at the final index (0 on an empty window, never hit). -/
def listMinQ : List ℚ → ℚ
  | [] => 0
  | x :: r => r.foldl min x

/-- `rolling(w).max()` at the final index. -/
def listMaxQ : List ℚ → ℚ
  | [] => 0
  | x :: r => r.foldl max x

/-- `series.diff()` dropping the leading NaN: pairwise successive deltas. -/
def diffsOf (xs : List ℚ) : List ℚ := (xs.zip xs.tail).map (fun p => p.2 - p.1)

/-- `delta.where(delta > 0, 0)`. -/
def gainsOf (xs : List ℚ) : List ℚ := (diffsOf xs).map (fun d => if 0 < d then d else 0)

/-- `(-delta).where(delta < 0, 0)`. -/
def lossesOf (xs : List ℚ) : List ℚ := (diffsOf xs).map (fun d => if d < 0 then -d else 0)

/-- `ewm(span=s, adjust=False).mean()` recursion: carry the accumulator. -/
def ewmGo (a : ℚ) (acc : ℚ) : List ℚ → List ℚ
  | [] => []
  | x :: xs => ((1 - a) * acc + a * x) :: ewmGo a ((1 - a) * acc + a * x) xs

/-- `ewm(span=s, adjust=False).mean()`: y₀ = x₀, yₜ = (1−α)yₜ₋₁ + αxₜ with
α = 2/(span+1). -/
def ewmMean (span : ℕ) (xs : List ℚ) : List ℚ :=
  match xs with
  | [] => []
  | x :: rest => x :: ewmGo (2 / ((span : ℚ) + 1)) x rest

/-- `close.pct_change()` dropping the leading NaN entry, as floats:
each entry is `c[t]/c[t-1] - 1` with IEEE division. -/
def pctChanges (xs : List ℚ) : List F :=
  (xs.zip xs.tail).map (fun p => F.sub (fdiv p.2 p.1) (F.fin 1))

/-- numpy std over a float window: finite values give sqrt of the sample
variance, any NaN or infinity in the window yields NaN. -/
def stdFOfF (sq : ℚ → ℚ) (xs : List F) : F :=
  if xs.all F.isFinite then F.fin (sq (sampleVar (xs.map F.toQ))) else F.nan

/-! Series extracted from a per-symbol bar history
(predict_with_real_data.py, MarketDataProvider.calculate_features). -/

def closesOf (bars : List Bar) : List ℚ := bars.map (·.close)
def highsOf (bars : List Bar) : List ℚ := bars.map (·.high)
def lowsOf (bars : List Bar) : List ℚ := bars.map (·.low)
def volsOf (bars : List Bar) : List ℚ := bars.map (·.volume)

/-- RSI average gain at the latest index: `rolling(14).mean()` of clipped deltas. -/
def avgGainOf (bars : List Bar) : ℚ := meanQ (lastN 14 (gainsOf (closesOf bars)))

/-- RSI average loss at the latest index. -/
def avgLossOf (bars : List Bar) : ℚ := meanQ (lastN 14 (lossesOf (closesOf bars)))

/-- `rsi = 100 - (100 / (1 + gain/loss))` at the latest index, float semantics. -/
def rsiRawOf (bars : List Bar) : F :=
  F.sub (F.fin 100) (F.div (F.fin 100) (F.add (F.fin 1) (fdiv (avgGainOf bars) (avgLossOf bars))))

/-- `macd = ema_12 - ema_26` series. -/
def macdSeriesOf (xs : List ℚ) : List ℚ :=
  List.zipWith (fun a b => a - b) (ewmMean 12 xs) (ewmMean 26 xs)

def macdLatest (bars : List Bar) : ℚ := lastQ (macdSeriesOf (closesOf bars))

/-- `macd_histogram = macd - macd.ewm(span=9).mean()` at the latest index. -/
def macdHistLatest (bars : List Bar) : ℚ :=
  lastQ (List.zipWith (fun a b => a - b) (macdSeriesOf (closesOf bars))
    (ewmMean 9 (macdSeriesOf (closesOf bars))))

def bbMidOf (bars : List Bar) : ℚ := meanQ (lastN 20 (closesOf bars))
def bbVarOf (bars : List Bar) : ℚ := sampleVar (lastN 20 (closesOf bars))
def bbStdOf (sq : ℚ → ℚ) (bars : List Bar) : ℚ := sq (bbVarOf bars)
def bbUpperOf (sq : ℚ → ℚ) (bars : List Bar) : ℚ := bbMidOf bars + 2 * bbStdOf sq bars
def bbLowerOf (sq : ℚ → ℚ) (bars : List Bar) : ℚ := bbMidOf bars - 2 * bbStdOf sq bars

/-- `bb_width = (bb_upper - bb_lower) / bb_middle` at the latest index. -/
def bbWidthRawOf (sq : ℚ → ℚ) (bars : List Bar) : F :=
  fdiv (bbUpperOf sq bars - bbLowerOf sq bars) (bbMidOf bars)

/-- `bb_position = (close - bb_lower) / (bb_upper - bb_lower)`: NOT clamped. -/
def bbPosRawOf (sq : ℚ → ℚ) (bars : List Bar) : F :=
  fdiv (lastQ (closesOf bars) - bbLowerOf sq bars) (bbUpperOf sq bars - bbLowerOf sq bars)

/-- `ema_trend = (ema_20 > ema_50).astype(int)` at the latest index. -/
def emaTrendOf (bars : List Bar) : ℤ :=
  if lastQ (ewmMean 20 (closesOf bars)) > lastQ (ewmMean 50 (closesOf bars)) then 1 else 0

/-- `volume / volume.rolling(20).mean()` at the latest index. -/
def volRatioRawOf (bars : List Bar) : F :=
  fdiv (lastQ (volsOf bars)) (meanQ (lastN 20 (volsOf bars)))

def stochLLOf (bars : List Bar) : ℚ := listMinQ (lastN 14 (lowsOf bars))
def stochHHOf (bars : List Bar) : ℚ := listMaxQ (lastN 14 (highsOf bars))

/-- `stochastic = 100 * (close - lowest_low) / (highest_high - lowest_low)`. -/
def stochRawOf (bars : List Bar) : F :=
  fdiv (100 * (lastQ (closesOf bars) - stochLLOf bars)) (stochHHOf bars - stochLLOf bars)

/-- `close.pct_change(k)` at the latest index: `c[n-1]/c[n-1-k] - 1`. -/
def pctChangeRawOf (k : ℕ) (bars : List Bar) : F :=
  F.sub (fdiv (lastQ (closesOf bars)) ((closesOf bars).getD (bars.length - 1 - k) 0)) (F.fin 1)

/-- `close.pct_change().rolling(20).std()` at the latest index. -/
def volatilityRawOf (sq : ℚ → ℚ) (bars : List Bar) : F :=
  stdFOfF sq (lastN 20 (pctChanges (closesOf bars)))

/-- Fallback for `bb_width` when its latest value is NaN (source: 0.02). -/
def bb_width_default : ℚ := 1 / 50

/-- Fallback for `volatility_20` when its latest value is NaN (source: 0.0). -/
def volatility_default : ℚ := 0

/-- One flat feature record per symbol, as assembled by `calculate_features`.
Numeric fields are floats (`F`); `ema_trend` is an int flag. -/
structure RealFeature where
  symbol : String
  timestamp : String
  price : ℚ
  rsi : F
  macd : F
  macd_histogram : F
  bb_width : F
  bb_position : F
  ema_trend : ℤ
  volume_ratio : F
  stochastic : F
  price_change_1d : F
  price_change_5d : F
  price_change_10d : F
  volatility_20 : F
  news_sentiment : ℚ
deriving DecidableEq

/-- Body of the per-symbol loop of `calculate_features`: read the latest value
of every indicator and replace NaN by the documented default. -/
def featuresOf (sq : ℚ → ℚ) (symbol : String) (bars : List Bar) : RealFeature :=
  { symbol := symbol
    timestamp := (bars.map (·.timestamp)).getLastD ""
    price := lastQ (closesOf bars)
    rsi := unNan (rsiRawOf bars) 50
    macd := unNan (F.fin (macdLatest bars)) 0
    macd_histogram := unNan (F.fin (macdHistLatest bars)) 0
    bb_width := unNan (bbWidthRawOf sq bars) bb_width_default
    bb_position := unNan (bbPosRawOf sq bars) (1 / 2)
    ema_trend := emaTrendOf bars
    volume_ratio := unNan (volRatioRawOf bars) 1
    stochastic := unNan (stochRawOf bars) 50
    price_change_1d := unNan (pctChangeRawOf 1 bars) 0
    price_change_5d := unNan (pctChangeRawOf 5 bars) 0
    price_change_10d := unNan (pctChangeRawOf 10 bars) 0
    volatility_20 := unNan (volatilityRawOf sq bars) volatility_default
    news_sentiment := 0 }

/-- `MarketDataProvider.calculate_features`: iterate the symbol → bars mapping
in order; a history shorter than 50 bars is skipped (`continue`), a qualifying
one contributes exactly one feature record. -/
def calcFeatures (sq : ℚ → ℚ) (barsDict : List (String × List Bar)) : List RealFeature :=
  barsDict.filterMap (fun p =>
    if p.2.length < 50 then none else some (featuresOf sq p.1 p.2))

/-! The request schema and rule-based scorer of simple-ml-service.py, and the
validation bounds shared with ml-service/main.py (class MarketFeatures). -/

/-- `MarketFeatures` request record (floats as exact rationals). -/
structure MarketFeatures where
  symbol : String
  rsi : ℚ
  macd : ℚ
  macd_histogram : ℚ
  bb_width : ℚ
  bb_position : ℚ
  ema_trend : ℤ
  volume_ratio : ℚ
  stochastic : ℚ
  price_change_1d : ℚ
  price_change_5d : ℚ
  price_change_10d : ℚ
  volatility_20 : ℚ
  news_sentiment : ℚ
  price : Option ℚ
deriving DecidableEq

/-- The pydantic `Field(ge=..., le=...)` bounds of `MarketFeatures` in
ml-service/main.py (identical in simple-ml-service.py): a request violating
any bound is rejected with a validation error before `predict` runs. -/
def mfValid (f : MarketFeatures) : Bool :=
  (0 ≤ f.rsi && f.rsi ≤ 100) &&
  (0 ≤ f.bb_width) &&
  (0 ≤ f.bb_position && f.bb_position ≤ 1) &&
  (0 ≤ f.ema_trend && f.ema_trend ≤ 1) &&
  (0 ≤ f.volume_ratio) &&
  (0 ≤ f.stochastic && f.stochastic ≤ 100) &&
  (0 ≤ f.volatility_20) &&
  (-1 ≤ f.news_sentiment && f.news_sentiment ≤ 1)

/-! Rule-based scorer (simple-ml-service.py, predict, lines 116-180):
sequential accumulation of weighted threshold contributions. -/

/-- `if rsi > 70: score -= 2 elif rsi < 30: score += 2`. -/
def rsiStep (f : MarketFeatures) (s : ℚ) : ℚ :=
  if f.rsi > 70 then s - 2 else if f.rsi < 30 then s + 2 else s

/-- `if macd_histogram > 0: score += 1 elif macd_histogram < 0: score -= 1`. -/
def macdStep (f : MarketFeatures) (s : ℚ) : ℚ :=
  if f.macd_histogram > 0 then s + 1 else if f.macd_histogram < 0 then s - 1 else s

/-- `if bb_position > 0.8: score -= 1 elif bb_position < 0.2: score += 1`. -/
def bbStep (f : MarketFeatures) (s : ℚ) : ℚ :=
  if f.bb_position > 4 / 5 then s - 1 else if f.bb_position < 1 / 5 then s + 1 else s

/-- `if volume_ratio > 1.5: score += 0.5 elif volume_ratio < 0.5: score -= 0.5`. -/
def volStep (f : MarketFeatures) (s : ℚ) : ℚ :=
  if f.volume_ratio > 3 / 2 then s + 1 / 2 else if f.volume_ratio < 1 / 2 then s - 1 / 2 else s

/-- `if stochastic > 80: score -= 1 elif stochastic < 20: score += 1`. -/
def stochStep (f : MarketFeatures) (s : ℚ) : ℚ :=
  if f.stochastic > 80 then s - 1 else if f.stochastic < 20 then s + 1 else s

/-- `if ema_trend == 1: score += 0.5 else: score -= 0.5`. -/
def emaStep (f : MarketFeatures) (s : ℚ) : ℚ :=
  if f.ema_trend = 1 then s + 1 / 2 else s - 1 / 2

/-- The accumulated score, starting from 0, in the source's statement order. -/
def ruleScore (f : MarketFeatures) : ℚ :=
  emaStep f (stochStep f (volStep f (bbStep f (macdStep f (rsiStep f 0)))))

/-- `score >= 2` ⇒ buy, `score <= -2` ⇒ sell, otherwise hold. -/
def ruleAction (f : MarketFeatures) : String :=
  if 2 ≤ ruleScore f then "buy" else if ruleScore f ≤ -2 then "sell" else "hold"

/-- `min(0.9, 0.6 + (score - 2) * 0.1)` for buy,
`min(0.9, 0.6 + abs(score + 2) * 0.1)` for sell, `0.6` for hold. -/
def ruleConfidence (f : MarketFeatures) : ℚ :=
  if 2 ≤ ruleScore f then min (9 / 10) (6 / 10 + (ruleScore f - 2) * (1 / 10))
  else if ruleScore f ≤ -2 then min (9 / 10) (6 / 10 + |ruleScore f + 2| * (1 / 10))
  else 6 / 10

/-! Spec-side restatement of the rule scorer (section 4.3 of the spec), used
for the refinement theorem of C1: a sum of independent contributions plus a
threshold mapping with `0.1 × excess_beyond_threshold` confidence. -/

/-- Spec wording: score is the sum of six weighted threshold contributions. -/
def specRuleScore (f : MarketFeatures) : ℚ :=
  (if f.rsi > 70 then -2 else if f.rsi < 30 then 2 else 0)
  + (if f.macd_histogram > 0 then 1 else if f.macd_histogram < 0 then -1 else 0)
  + (if f.bb_position > 4 / 5 then -1 else if f.bb_position < 1 / 5 then 1 else 0)
  + (if f.volume_ratio > 3 / 2 then 1 / 2 else if f.volume_ratio < 1 / 2 then -1 / 2 else 0)
  + (if f.stochastic > 80 then -1 else if f.stochastic < 20 then 1 else 0)
  + (if f.ema_trend = 1 then 1 / 2 else -1 / 2)

/-- Spec wording: `score ≥ 2` ⇒ buy, `score ≤ −2` ⇒ sell, else hold. -/
def specActionOf (s : ℚ) : String :=
  if 2 ≤ s then "buy" else if s ≤ -2 then "sell" else "hold"

/-- Spec wording: confidence `min(0.9, 0.6 + 0.1 × excess_beyond_threshold)`
for buy/sell (excess `s − 2` resp. `−2 − s`), exactly `0.6` for hold. -/
def specConfidenceOf (s : ℚ) : ℚ :=
  if 2 ≤ s then min (9 / 10) (6 / 10 + (1 / 10) * (s - 2))
  else if s ≤ -2 then min (9 / 10) (6 / 10 + (1 / 10) * (-2 - s))
  else 6 / 10

/-! Classifier-backed signal emitters. The trained classifier is an external
collaborator: its per-row predicted class and probability row are inputs. -/

/-- ml-service/main.py lines 241-247: `class_map.get(pred_class, 'hold')`. -/
def class_map (c : ℤ) : String :=
  if c = -1 then "sell" else if c = 0 then "hold" else if c = 1 then "buy" else "hold"

/-- Python `list.index(x)`: position of the first occurrence, `none` for the
`ValueError` path. -/
def indexOfZ (x : ℤ) : List ℤ → Option ℕ
  | [] => none
  | a :: r => if a = x then some 0 else (indexOfZ x r).map (· + 1)

/-- ml-service/main.py lines 246-247: `class_idx = MODEL.classes_.tolist().index(pred_class);
confidence = float(probs[class_idx])` — `none` models the `ValueError` /
`IndexError` paths of a missing class or short probability row. -/
def mlServiceConfidence (classes : List ℤ) (probs : List ℚ) (pred : ℤ) : Option ℚ :=
  (indexOfZ pred classes).bind (fun i => probs.get? i)

/-- python-functions/model/predict.py lines 91-97: when a probability row of
width ≥ 3 is available the confidence is `float(np.max(preds[i]))` — the MAX
over all classes — otherwise the fixed fallback 0.6. -/
def predictPyConfidence (probs : List ℚ) : ℚ :=
  if 3 ≤ probs.length then (probs.max?).getD 0 else 3 / 5

/-- predict.py signal record (lines 99-106). -/
structure PYSignal where
  symbol : String
  action : String
  confidence : ℚ
  price : ℚ
  timestamp : String
  reasoning : String
deriving DecidableEq

def pySignalOf (now : String) (s : String) (cls : ℤ) (probs : List ℚ) : PYSignal :=
  { symbol := s
    action := if cls = 0 then "hold" else if cls = 1 then "buy" else "sell"
    confidence := predictPyConfidence probs
    price := 150
    timestamp := now
    reasoning := "RF prediction" }

/-- predict.py signal loop (lines 81-106), indexed over the symbol list. -/
def pyGo (now : String) (predCls : List ℤ) (preds : List (List ℚ)) (i : ℕ) :
    List String → List PYSignal
  | [] => []
  | s :: rest =>
      pySignalOf now s (predCls.getD i 0) (preds.getD i []) ::
        pyGo now predCls preds (i + 1) rest

def predictPySignals (now : String) (symbols : List String) (predCls : List ℤ)
    (preds : List (List ℚ)) : List PYSignal :=
  pyGo now predCls preds 0 symbols

/-- Python banker's rounding of a rational to the nearest integer
(ties to even), the idealisation of `round(x)`. -/
def roundHalfEven (q : ℚ) : ℤ :=
  if q - ⌊q⌋ < 1 / 2 then ⌊q⌋
  else if 1 / 2 < q - ⌊q⌋ then ⌊q⌋ + 1
  else if ⌊q⌋ % 2 = 0 then ⌊q⌋ else ⌊q⌋ + 1

/-- `round(q, d)`. -/
def pyRound (d : ℕ) (q : ℚ) : ℚ := (roundHalfEven (q * 10 ^ d) : ℚ) / 10 ^ d

/-- `round` on a float: infinities and NaN pass through. -/
def pyRoundF (d : ℕ) : F → F
  | F.fin q => F.fin (pyRound d q)
  | y => y

/-! ml-service/main.py predict (lines 187-346). The reasoning text and the
rounded indicator snapshot of this service are not modelled: no frozen claim
mentions them, and the timestamp/confidence structure is what matters here. -/

structure MLSignal where
  symbol : String
  action : String
  confidence : ℚ
  price : Option ℚ
  timestamp : String
deriving DecidableEq

/-- One signal of the main.py loop: class mapped by `class_map`, confidence
looked up at the predicted class's index, timestamp the shared batch stamp. -/
def mlSignalOf (classes : List ℤ) (pred : ℤ) (probs : List ℚ) (ts : String)
    (feat : MarketFeatures) : MLSignal :=
  { symbol := feat.symbol
    action := class_map pred
    confidence := (mlServiceConfidence classes probs pred).getD 0
    price := feat.price
    timestamp := ts }

def msGo (classes : List ℤ) (predCls : List ℤ) (preds : List (List ℚ)) (ts : String)
    (i : ℕ) : List MarketFeatures → List MLSignal
  | [] => []
  | f :: rest =>
      mlSignalOf classes (predCls.getD i 0) (preds.getD i []) ts f ::
        msGo classes predCls preds ts (i + 1) rest

/-- The signal list of one main.py predict call; `ts` is the single
`datetime.utcnow().isoformat()` taken before the loop (line 231). -/
def mlServicePredict (classes : List ℤ) (predCls : List ℤ) (preds : List (List ℚ))
    (feats : List MarketFeatures) (ts : String) : List MLSignal :=
  msGo classes predCls preds ts 0 feats

structure MLResponse where
  signals : List MLSignal
  timestamp : String
deriving DecidableEq

/-- The main.py `PredictionResponse`: same batch timestamp on the envelope. -/
def mlServiceResponse (classes : List ℤ) (predCls : List ℤ) (preds : List (List ℚ))
    (feats : List MarketFeatures) (ts : String) : MLResponse :=
  { signals := mlServicePredict classes predCls preds feats ts, timestamp := ts }

/-! TradingPredictor.predict of predict_with_real_data.py (lines 214-284). -/

structure TPIndicators where
  rsi : F
  macd : F
  bb_position : F
  volume_ratio : F
  stochastic : F
deriving DecidableEq

structure TPSignal where
  symbol : String
  action : String
  confidence : ℚ
  price : ℚ
  timestamp : String
  reasoning : String
  indicators : TPIndicators
deriving DecidableEq

/-- Reasoning clauses of TradingPredictor.predict (lines 248-264), joined with
`"; "`; float comparisons are false on NaN. -/
def tpReasoningOf (f : RealFeature) : String :=
  let parts :=
    (if F.ltb (F.fin 70) f.rsi then ["Overbought (RSI>70)"]
     else if F.ltb f.rsi (F.fin 30) then ["Oversold (RSI<30)"] else [])
    ++ (if F.ltb (F.fin 0) f.macd_histogram && f.ema_trend == 1 then ["Bullish momentum"]
        else if F.ltb f.macd_histogram (F.fin 0) && f.ema_trend == 0 then ["Bearish momentum"]
        else [])
    ++ (if F.ltb (F.fin (9 / 10)) f.bb_position then ["Near upper BB"]
        else if F.ltb f.bb_position (F.fin (1 / 10)) then ["Near lower BB"] else [])
  if parts.isEmpty then "ML prediction" else String.intercalate "; " parts

/-- One signal of the TradingPredictor loop. The timestamp is the ROW's own
`row['timestamp']` (line 271), i.e. the symbol's latest bar time — there is no
batch-wide stamp in this emitter. Confidence is the predicted class's own
probability via `.index` lookup (lines 237-245). -/
def tpSignalOf (classes : List ℤ) (pred : ℤ) (probs : List ℚ) (f : RealFeature) : TPSignal :=
  { symbol := f.symbol
    action := if pred = 1 then "buy" else if pred = -1 then "sell" else "hold"
    confidence :=
      (mlServiceConfidence classes probs
        (if pred = 1 then 1 else if pred = -1 then -1 else 0)).getD 0
    price := f.price
    timestamp := f.timestamp
    reasoning := tpReasoningOf f
    indicators :=
      { rsi := pyRoundF 2 f.rsi
        macd := pyRoundF 4 f.macd
        bb_position := pyRoundF 2 f.bb_position
        volume_ratio := pyRoundF 2 f.volume_ratio
        stochastic := pyRoundF 2 f.stochastic } }

def tpGo (classes : List ℤ) (predCls : List ℤ) (preds : List (List ℚ)) (i : ℕ) :
    List RealFeature → List TPSignal
  | [] => []
  | f :: rest =>
      tpSignalOf classes (predCls.getD i 0) (preds.getD i []) f ::
        tpGo classes predCls preds (i + 1) rest

/-- The signal list of one TradingPredictor.predict call. -/
def tpPredict (classes : List ℤ) (predCls : List ℤ) (preds : List (List ℚ))
    (feats : List RealFeature) : List TPSignal :=
  tpGo classes predCls preds 0 feats

/-! Theorems. -/

lemma rsiStep_eq (f : MarketFeatures) (s : ℚ) :
    rsiStep f s = s + (if f.rsi > 70 then -2 else if f.rsi < 30 then 2 else 0) := by
  unfold rsiStep; split_ifs <;> ring

lemma macdStep_eq (f : MarketFeatures) (s : ℚ) :
    macdStep f s = s + (if f.macd_histogram > 0 then 1 else if f.macd_histogram < 0 then -1 else 0) := by
  unfold macdStep; split_ifs <;> ring

lemma bbStep_eq (f : MarketFeatures) (s : ℚ) :
    bbStep f s = s + (if f.bb_position > 4 / 5 then -1 else if f.bb_position < 1 / 5 then 1 else 0) := by
  unfold bbStep; split_ifs <;> ring

lemma volStep_eq (f : MarketFeatures) (s : ℚ) :
    volStep f s = s + (if f.volume_ratio > 3 / 2 then 1 / 2 else if f.volume_ratio < 1 / 2 then -1 / 2 else 0) := by
  unfold volStep; split_ifs <;> ring

lemma stochStep_eq (f : MarketFeatures) (s : ℚ) :
    stochStep f s = s + (if f.stochastic > 80 then -1 else if f.stochastic < 20 then 1 else 0) := by
  unfold stochStep; split_ifs <;> ring

lemma emaStep_eq (f : MarketFeatures) (s : ℚ) :
    emaStep f s = s + (if f.ema_trend = 1 then 1 / 2 else -1 / 2) := by
  unfold emaStep; split_ifs <;> ring

/-- C1: the rule-based scorer starts from 0 and adds exactly the spec's six
weighted threshold contributions, maps `score ≥ 2` to buy, `score ≤ −2` to
sell and anything else to hold, with confidence
`min(0.9, 0.6 + 0.1 × excess_beyond_threshold)` for buy/sell and exactly 0.6
for hold. -/
theorem c1_rule_scorer_matches_spec (f : MarketFeatures) :
    ruleScore f = specRuleScore f ∧
    ruleAction f = specActionOf (ruleScore f) ∧
    ruleConfidence f = specConfidenceOf (ruleScore f) := by
  refine ⟨?_, rfl, ?_⟩
  · unfold ruleScore specRuleScore
    rw [rsiStep_eq, macdStep_eq, bbStep_eq, volStep_eq, stochStep_eq, emaStep_eq]
    ring
  · unfold ruleConfidence specConfidenceOf
    split_ifs with h1 h2
    · congr 1; ring
    · congr 1; rw [abs_of_nonpos (by linarith)]; ring
    · rfl

/-- The feature record of the concrete scenario in C2: rsi 75, macd histogram
−0.05, ema_trend 0, bb_position 0.85, volume_ratio 2.5, stochastic 80. -/
def scenarioC2 : MarketFeatures :=
  { symbol := "TEST"
    rsi := 75
    macd := 0
    macd_histogram := -1 / 20
    bb_width := 1 / 50
    bb_position := 17 / 20
    ema_trend := 0
    volume_ratio := 5 / 2
    stochastic := 80
    price_change_1d := 0
    price_change_5d := 0
    price_change_10d := 0
    volatility_20 := 1 / 100
    news_sentiment := 0
    price := none }

/-- C2 counterexample: on the claimed scenario the code's score is −4, not −5
(stochastic 80 does not satisfy the strict `> 80` test), and the confidence is
0.8, not 0.9. -/
theorem c2_counterexample :
    ruleScore scenarioC2 = -4 ∧ ¬ ruleScore scenarioC2 = -5 ∧
    ruleConfidence scenarioC2 = 4 / 5 ∧ ¬ ruleConfidence scenarioC2 = 9 / 10 := by
  norm_num [ruleConfidence, ruleScore, rsiStep, macdStep, bbStep, volStep, stochStep,
    emaStep, scenarioC2]

/-- C2 amended: the scenario scores −4 (−2 RSI, −1 MACD, −1 BB, +0.5 volume,
0 stochastic since 80 is not strictly greater than 80, −0.5 EMA), giving
action sell with confidence min(0.9, 0.6 + 0.1×2) = 0.8. -/
theorem c2_amended_scenario :
    ruleScore scenarioC2 = -4 ∧ stochStep scenarioC2 0 = 0 ∧
    ruleAction scenarioC2 = "sell" ∧ ruleConfidence scenarioC2 = 4 / 5 := by
  norm_num [ruleAction, ruleConfidence, ruleScore, rsiStep, macdStep, bbStep, volStep,
    stochStep, emaStep, scenarioC2]

/-- C10: the rule-based confidence always lies in [0.6, 0.9], and a hold
signal's confidence is exactly 0.6. -/
theorem c10_confidence_bounds (f : MarketFeatures) :
    (6 / 10 ≤ ruleConfidence f ∧ ruleConfidence f ≤ 9 / 10) ∧
    (ruleAction f = "hold" → ruleConfidence f = 6 / 10) := by
  rcases le_or_lt 2 (ruleScore f) with h1 | h1
  · have ha : ruleAction f = "buy" := by unfold ruleAction; rw [if_pos h1]
    have hc : ruleConfidence f = min (9 / 10) (6 / 10 + (ruleScore f - 2) * (1 / 10)) := by
      unfold ruleConfidence; rw [if_pos h1]
    refine ⟨⟨?_, ?_⟩, ?_⟩
    · rw [hc]; exact le_min (by norm_num) (by nlinarith)
    · rw [hc]; exact min_le_left _ _
    · intro h; rw [ha] at h; exact absurd h (by decide)
  · have hn1 : ¬ (2 ≤ ruleScore f) := not_le.mpr h1
    rcases le_or_lt (ruleScore f) (-2) with h2 | h2
    · have ha : ruleAction f = "sell" := by unfold ruleAction; rw [if_neg hn1, if_pos h2]
      have hc : ruleConfidence f = min (9 / 10) (6 / 10 + |ruleScore f + 2| * (1 / 10)) := by
        unfold ruleConfidence; rw [if_neg hn1, if_pos h2]
      refine ⟨⟨?_, ?_⟩, ?_⟩
      · rw [hc]
        refine le_min (by norm_num) ?_
        have habs := abs_nonneg (ruleScore f + 2)
        nlinarith
      · rw [hc]; exact min_le_left _ _
      · intro h; rw [ha] at h; exact absurd h (by decide)
    · have hn2 : ¬ (ruleScore f ≤ -2) := not_le.mpr h2
      have hc : ruleConfidence f = 6 / 10 := by
        unfold ruleConfidence; rw [if_neg hn1, if_neg hn2]
      exact ⟨⟨le_of_eq hc.symm, by rw [hc]; norm_num⟩, fun _ => hc⟩

/-- A neutral feature record whose rule score is 0.5, hence a hold signal. -/
def mfHold : MarketFeatures :=
  { symbol := "HOLD"
    rsi := 50
    macd := 0
    macd_histogram := 0
    bb_width := 1 / 50
    bb_position := 1 / 2
    ema_trend := 1
    volume_ratio := 1
    stochastic := 50
    price_change_1d := 0
    price_change_5d := 0
    price_change_10d := 0
    volatility_20 := 1 / 100
    news_sentiment := 0
    price := some 100 }

/-- Witness for C10 at a concrete hold record. -/
theorem c10_confidence_bounds_witness :
    ruleAction mfHold = "hold" ∧ ruleConfidence mfHold = 6 / 10 ∧
    6 / 10 ≤ ruleConfidence mfHold := by
  have hh : ruleAction mfHold = "hold" := by
    norm_num [ruleAction, ruleScore, rsiStep, macdStep, bbStep, volStep, stochStep,
      emaStep, mfHold]
  exact ⟨hh, (c10_confidence_bounds mfHold).2 hh, ((c10_confidence_bounds mfHold).1).1⟩

/-- C3 amended: ml-service/main.py (and TradingPredictor) take the predicted
class's OWN probability, looked up at its index in the classes list, as the
confidence; python-functions/model/predict.py instead takes the MAXIMUM
probability over all classes, so the two agree only when the predicted class
holds the maximum. -/
theorem c3_amended_confidence :
    (∀ pa pb pc : ℚ,
      mlServiceConfidence [-1, 0, 1] [pa, pb, pc] (-1) = some pa ∧
      mlServiceConfidence [-1, 0, 1] [pa, pb, pc] 0 = some pb ∧
      mlServiceConfidence [-1, 0, 1] [pa, pb, pc] 1 = some pc) ∧
    (∀ pa pb pc : ℚ, predictPyConfidence [pa, pb, pc] = max (max pa pb) pc) := by
  constructor
  · intro pa pb pc
    refine ⟨?_, ?_, ?_⟩ <;> simp [mlServiceConfidence, indexOfZ]
  · intro pa pb pc
    simp [predictPyConfidence, List.max?]

/-- C3 counterexample: with classes [−1,0,1], probability row
[0.5, 0.2, 0.3] and predicted class 1, the predict.py emitter's signal carries
confidence 0.5 — the maximum — while the probability assigned to the predicted
class itself is 0.3; the claim that every classifier-backed scorer uses the
predicted class's own probability is therefore false for predict.py. -/
theorem c3_counterexample :
    ((predictPySignals "T" ["AAPL"] [1] [[1 / 2, 1 / 5, 3 / 10]]).map
        (fun s => (s.action, s.confidence))) = [("buy", 1 / 2)] ∧
    mlServiceConfidence [-1, 0, 1] [1 / 2, 1 / 5, 3 / 10] 1 = some (3 / 10) ∧
    ¬ ((1 : ℚ) / 2 = 3 / 10) := by
  refine ⟨?_, ?_, by norm_num⟩
  · simp only [predictPySignals, pyGo, pySignalOf, predictPyConfidence, List.max?,
      List.getD, List.map, List.get?, Option.getD]
    norm_num
  · simp [mlServiceConfidence, indexOfZ]

/-- A feature record with bb_position = 1.2 (price above the upper band,
every other field inside the documented ranges). -/
def mfBB12 : MarketFeatures :=
  { symbol := "AAPL"
    rsi := 50
    macd := 0
    macd_histogram := 0
    bb_width := 1 / 50
    bb_position := 6 / 5
    ema_trend := 1
    volume_ratio := 1
    stochastic := 50
    price_change_1d := 0
    price_change_5d := 0
    price_change_10d := 0
    volatility_20 := 1 / 100
    news_sentiment := 0
    price := some 100 }

/-- The same record with bb_position back inside [0,1]. -/
def mfBBok : MarketFeatures :=
  { mfBB12 with bb_position := 1 / 2 }

/-- The assembled feature record with bb_position 1.2, as
`calculate_features` emits it (floats, unclamped). -/
def rfBB12 : RealFeature :=
  { symbol := "AAPL"
    timestamp := "2024-01-02T00:00:00"
    price := 100
    rsi := F.fin 50
    macd := F.fin 0
    macd_histogram := F.fin 0
    bb_width := F.fin (1 / 50)
    bb_position := F.fin (6 / 5)
    ema_trend := 1
    volume_ratio := F.fin 1
    stochastic := F.fin 50
    price_change_1d := F.fin 0
    price_change_5d := F.fin 0
    price_change_10d := F.fin 0
    volatility_20 := F.fin (1 / 100)
    news_sentiment := 0 }

def dummyTPSignal : TPSignal :=
  { symbol := ""
    action := ""
    confidence := 0
    price := 0
    timestamp := ""
    reasoning := ""
    indicators :=
      { rsi := F.nan, macd := F.nan, bb_position := F.nan,
        volume_ratio := F.nan, stochastic := F.nan } }

lemma roundHalfEven_intCast (n : ℤ) : roundHalfEven (n : ℚ) = n := by
  unfold roundHalfEven
  rw [Int.floor_intCast]
  norm_num

/-- C4: the internal pipeline accepts a feature record with bb_position = 1.2
and carries the value through unclamped (the rule scorer reads the raw value,
TradingPredictor emits it in the indicator snapshot), but the HTTP services'
`MarketFeatures` validation (`ge=0, le=1`) REJECTS the same record, while
accepting it once bb_position is inside [0,1] — the out-of-band value is a
validation failure there, contradicting the claim. -/
theorem c4_code_eval :
    mfValid mfBB12 = false ∧
    mfValid mfBBok = true ∧
    bbStep mfBB12 0 = -1 ∧
    (tpPredict [-1, 0, 1] [0] [[1 / 5, 3 / 5, 1 / 5]] [rfBB12]).length = 1 ∧
    ((tpPredict [-1, 0, 1] [0] [[1 / 5, 3 / 5, 1 / 5]] [rfBB12]).getD 0
        dummyTPSignal).action = "hold" ∧
    ((tpPredict [-1, 0, 1] [0] [[1 / 5, 3 / 5, 1 / 5]] [rfBB12]).getD 0
        dummyTPSignal).indicators.bb_position = F.fin (6 / 5) := by
  refine ⟨?_, ?_, ?_, ?_, ?_, ?_⟩
  · simp [mfValid, mfBB12]
    norm_num
  · simp [mfValid, mfBBok, mfBB12]
    norm_num
  · norm_num [bbStep, mfBB12]
  · simp [tpPredict, tpGo]
  · simp [tpPredict, tpGo, tpSignalOf, List.getD, rfBB12]
  · have hbb : pyRound 2 (6 / 5) = 6 / 5 := by
      unfold pyRound
      have h120 : ((6 : ℚ) / 5) * 10 ^ 2 = ((120 : ℤ) : ℚ) := by norm_num
      rw [h120, roundHalfEven_intCast]
      norm_num
    simp [tpPredict, tpGo, tpSignalOf, List.getD, rfBB12, pyRoundF, hbb]

lemma featuresOf_symbol (sq : ℚ → ℚ) (s : String) (bars : List Bar) :
    (featuresOf sq s bars).symbol = s := rfl

/-- `calcFeatures` is: keep exactly the histories of length ≥ 50, in order,
and map the per-symbol assembler over them. -/
lemma calcFeatures_eq (sq : ℚ → ℚ) (d : List (String × List Bar)) :
    calcFeatures sq d = (d.filter (fun p => decide (50 ≤ p.2.length))).map
      (fun p => featuresOf sq p.1 p.2) := by
  induction d with
  | nil => rfl
  | cons p rest ih =>
    unfold calcFeatures at ih ⊢
    rw [List.filterMap_cons, List.filter_cons]
    by_cases h : p.2.length < 50
    · rw [if_pos h]
      have hd : decide (50 ≤ p.2.length) = false := decide_eq_false (by omega)
      rw [hd]
      simpa using ih
    · rw [if_neg h]
      have hd : decide (50 ≤ p.2.length) = true := decide_eq_true (by omega)
      rw [hd]
      simp [ih]

/-- In a python dict, keys are unique: two entries sharing a key coincide. -/
lemma keyUnique {s : String} {a b : List Bar} :
    ∀ (d : List (String × List Bar)), (d.map Prod.fst).Nodup →
      (s, a) ∈ d → (s, b) ∈ d → a = b := by
  intro d
  induction d with
  | nil => intro _ ha; exact absurd ha (List.not_mem_nil _)
  | cons p rest ih =>
    intro hnd ha hb
    rw [List.map_cons, List.nodup_cons] at hnd
    rcases List.mem_cons.mp ha with ha1 | ha1 <;> rcases List.mem_cons.mp hb with hb1 | hb1
    · exact congrArg Prod.snd (ha1.trans hb1.symm)
    · exfalso
      apply hnd.1
      have hs : s ∈ List.map Prod.fst rest := List.mem_map_of_mem Prod.fst hb1
      rw [← ha1]
      exact hs
    · exfalso
      apply hnd.1
      have hs : s ∈ List.map Prod.fst rest := List.mem_map_of_mem Prod.fst ha1
      rw [← hb1]
      exact hs
    · exact ih hnd.2 ha1 hb1

/-- C5: a symbol whose bar history is shorter than 50 bars is silently
excluded from the assembler's output — no feature record carries its symbol
and no default-filled entry exists (the characterisation conjunct shows the
output is exactly one record per qualifying symbol, input order preserved,
so symbols with at least 50 bars are unaffected; totality of `calcFeatures`
models the absence of exceptions). -/
theorem c5_short_history_skipped (sq : ℚ → ℚ) (d : List (String × List Bar))
    (s : String) (bars : List Bar) (hmem : (s, bars) ∈ d)
    (hlen : bars.length < 50) (hnd : (d.map Prod.fst).Nodup) :
    (∀ f ∈ calcFeatures sq d, f.symbol ≠ s) ∧
    calcFeatures sq d = (d.filter (fun p => decide (50 ≤ p.2.length))).map
      (fun p => featuresOf sq p.1 p.2) := by
  refine ⟨?_, calcFeatures_eq sq d⟩
  intro f hf hs
  rw [calcFeatures_eq] at hf
  rcases List.mem_map.mp hf with ⟨p, hp, hfp⟩
  have hp' := List.mem_filter.mp hp
  have hlen' : 50 ≤ p.2.length := of_decide_eq_true hp'.2
  have hp1 : p.1 = s := by rw [← hfp] at hs; exact hs
  have hpd : (s, p.2) ∈ d := by
    have : p = (s, p.2) := by
      rw [← hp1]
    rw [← this]
    exact hp'.1
  have heq := keyUnique d hnd hpd hmem
  rw [heq] at hlen'
  omega

/-- Concrete sqrt surrogate for witnesses: zero exactly on zero. -/
def sqTest : ℚ → ℚ := fun q => if q = 0 then 0 else 1

def demoBar : Bar :=
  { timestamp := "2024-01-02T00:00:00", opn := 100, high := 101, low := 99,
    close := 100, volume := 10 }

def shortHist : List Bar := List.replicate 10 demoBar
def longHist : List Bar := List.replicate 50 demoBar
def demoDict : List (String × List Bar) := [("SHORT", shortHist), ("LONG", longHist)]

/-- Witness for C5: a 10-bar symbol next to a 50-bar symbol. -/
theorem c5_short_history_skipped_witness :
    (("SHORT", shortHist) ∈ demoDict ∧ shortHist.length < 50 ∧
      (demoDict.map Prod.fst).Nodup) ∧
    (∀ f ∈ calcFeatures sqTest demoDict, f.symbol ≠ "SHORT") := by
  have h1 : ("SHORT", shortHist) ∈ demoDict := List.mem_cons_self _ _
  have h2 : shortHist.length < 50 := by norm_num [shortHist]
  have h3 : (demoDict.map Prod.fst).Nodup := by simp [demoDict]
  exact ⟨⟨h1, h2, h3⟩,
    (c5_short_history_skipped sqTest demoDict "SHORT" shortHist h1 h2 h3).1⟩

/-! Order lemmas for the rolling min/max and last-value helpers. -/

lemma foldl_min_le_init (l : List ℚ) : ∀ acc : ℚ, l.foldl min acc ≤ acc := by
  induction l with
  | nil => intro acc; exact le_refl _
  | cons x r ih => intro acc; exact le_trans (ih (min acc x)) (min_le_left _ _)

lemma foldl_min_le_mem (l : List ℚ) : ∀ (acc x : ℚ), x ∈ l → l.foldl min acc ≤ x := by
  induction l with
  | nil => intro acc x hx; exact absurd hx (List.not_mem_nil _)
  | cons y r ih =>
    intro acc x hx
    rcases List.mem_cons.mp hx with h | h
    · subst h; exact le_trans (foldl_min_le_init r _) (min_le_right _ _)
    · exact ih _ x h

lemma listMinQ_le {xs : List ℚ} {x : ℚ} (h : x ∈ xs) : listMinQ xs ≤ x := by
  cases xs with
  | nil => exact absurd h (List.not_mem_nil _)
  | cons a r =>
    rcases List.mem_cons.mp h with h1 | h1
    · subst h1; exact foldl_min_le_init r _
    · exact foldl_min_le_mem r a x h1

lemma init_le_foldl_max (l : List ℚ) : ∀ acc : ℚ, acc ≤ l.foldl max acc := by
  induction l with
  | nil => intro acc; exact le_refl _
  | cons x r ih => intro acc; exact le_trans (le_max_left _ _) (ih (max acc x))

lemma mem_le_foldl_max (l : List ℚ) : ∀ (acc x : ℚ), x ∈ l → x ≤ l.foldl max acc := by
  induction l with
  | nil => intro acc x hx; exact absurd hx (List.not_mem_nil _)
  | cons y r ih =>
    intro acc x hx
    rcases List.mem_cons.mp hx with h | h
    · subst h; exact le_trans (le_max_right _ _) (init_le_foldl_max r _)
    · exact ih _ x h

lemma le_listMaxQ {xs : List ℚ} {x : ℚ} (h : x ∈ xs) : x ≤ listMaxQ xs := by
  cases xs with
  | nil => exact absurd h (List.not_mem_nil _)
  | cons a r =>
    rcases List.mem_cons.mp h with h1 | h1
    · subst h1; exact init_le_foldl_max r _
    · exact mem_le_foldl_max r a x h1

lemma getLastD_of_ne_nil {α : Type} (l : List α) (h : l ≠ []) (d1 d2 : α) :
    l.getLastD d1 = l.getLastD d2 := by
  cases l with
  | nil => exact absurd rfl h
  | cons a r => rw [List.getLastD_cons, List.getLastD_cons]

lemma getLastD_mem {α : Type} (l : List α) (h : l ≠ []) (d : α) : l.getLastD d ∈ l := by
  cases l with
  | nil => exact absurd rfl h
  | cons a r =>
    rw [List.getLastD_cons]
    exact List.getLastD_mem_cons r a

lemma getLastD_drop {α : Type} :
    ∀ (l : List α) (n : ℕ), n < l.length → ∀ d, (l.drop n).getLastD d = l.getLastD d := by
  intro l
  induction l with
  | nil => intro n h; simp at h
  | cons a r ih =>
    intro n h d
    cases n with
    | zero => rfl
    | succ m =>
      rw [List.drop_succ_cons]
      have hm : m < r.length := by simpa using h
      rw [ih m hm d, List.getLastD_cons]
      exact getLastD_of_ne_nil r (by intro hn; rw [hn] at hm; simp at hm) d a

lemma lastQ_lastN (w : ℕ) (xs : List ℚ) (hw : 1 ≤ w) (hx : xs ≠ []) :
    lastQ (lastN w xs) = lastQ xs := by
  unfold lastQ lastN
  apply getLastD_drop
  have : 0 < xs.length := List.length_pos.mpr hx
  omega

lemma lastN_ne_nil {α : Type} (w : ℕ) (xs : List α) (hw : 1 ≤ w) (hx : xs ≠ []) :
    lastN w xs ≠ [] := by
  unfold lastN
  rw [← List.length_pos, List.length_drop]
  have : 0 < xs.length := List.length_pos.mpr hx
  omega

lemma lastQ_mem (xs : List ℚ) (hx : xs ≠ []) : lastQ xs ∈ xs := getLastD_mem xs hx 0

/-- Default bar used only as the irrelevant `getLastD` fallback in proofs. -/
def barDefault : Bar := { timestamp := "", opn := 0, high := 0, low := 0, close := 0, volume := 0 }

lemma lastQ_map_bar (f : Bar → ℚ) :
    ∀ (bars : List Bar), bars ≠ [] → ∀ b0 : Bar,
      lastQ (bars.map f) = f (bars.getLastD b0) := by
  intro bars
  induction bars with
  | nil => intro hb; exact absurd rfl hb
  | cons a r ih =>
    intro _ b0
    cases r with
    | nil => rfl
    | cons b r' =>
      have h2 : (b :: r') ≠ [] := List.cons_ne_nil b r'
      have step1 : lastQ ((a :: b :: r').map f) = lastQ ((b :: r').map f) := by
        unfold lastQ
        rw [List.map_cons, List.getLastD_cons]
        exact getLastD_of_ne_nil ((b :: r').map f) (by simp) (f a) 0
      have step2 : (a :: b :: r').getLastD b0 = (b :: r').getLastD b0 := by
        rw [List.getLastD_cons]
        exact getLastD_of_ne_nil (b :: r') h2 a b0
      rw [step1, step2]
      exact ih h2 b0

/-- C6: when the 14-bar stochastic window has highest_high equal to
lowest_low, the float computation hits 0/0 = NaN (never an exception, the
embedding is total) and the emitted stochastic feature is the neutral
default 50.0. -/
theorem c6_stochastic_degenerate (sq : ℚ → ℚ) (sym : String) (bars : List Bar)
    (h50 : 50 ≤ bars.length)
    (hwf : ∀ b ∈ bars, b.low ≤ b.close ∧ b.close ≤ b.high)
    (hdeg : stochHHOf bars = stochLLOf bars) :
    (featuresOf sq sym bars).stochastic = F.fin 50 := by
  have hne : bars ≠ [] := by
    intro h
    rw [h] at h50
    simp at h50
  have hlne : lowsOf bars ≠ [] := by
    unfold lowsOf
    simpa using hne
  have hhne : highsOf bars ≠ [] := by
    unfold highsOf
    simpa using hne
  have hlm : lastQ (lowsOf bars) ∈ lastN 14 (lowsOf bars) := by
    rw [← lastQ_lastN 14 (lowsOf bars) (by norm_num) hlne]
    exact lastQ_mem _ (lastN_ne_nil 14 _ (by norm_num) hlne)
  have hhm : lastQ (highsOf bars) ∈ lastN 14 (highsOf bars) := by
    rw [← lastQ_lastN 14 (highsOf bars) (by norm_num) hhne]
    exact lastQ_mem _ (lastN_ne_nil 14 _ (by norm_num) hhne)
  have h1 : stochLLOf bars ≤ lastQ (lowsOf bars) := listMinQ_le hlm
  have h2 : lastQ (highsOf bars) ≤ stochHHOf bars := le_listMaxQ hhm
  have hlast := getLastD_mem bars hne barDefault
  obtain ⟨hl, hh⟩ := hwf _ hlast
  have hlq : lastQ (lowsOf bars) = (bars.getLastD barDefault).low :=
    lastQ_map_bar (fun b => b.low) bars hne barDefault
  have hhq : lastQ (highsOf bars) = (bars.getLastD barDefault).high :=
    lastQ_map_bar (fun b => b.high) bars hne barDefault
  have hcq : lastQ (closesOf bars) = (bars.getLastD barDefault).close :=
    lastQ_map_bar (fun b => b.close) bars hne barDefault
  have heq : lastQ (closesOf bars) = stochLLOf bars := by
    have hlo : stochLLOf bars ≤ lastQ (closesOf bars) := by
      rw [hcq]
      exact le_trans (hlq ▸ h1) hl
    have hup : lastQ (closesOf bars) ≤ stochLLOf bars := by
      rw [← hdeg, hcq]
      exact le_trans hh (hhq ▸ h2)
    exact le_antisymm hup hlo
  have hnum : 100 * (lastQ (closesOf bars) - stochLLOf bars) = 0 := by
    rw [heq]; ring
  have hden : stochHHOf bars - stochLLOf bars = 0 := by
    rw [hdeg]; ring
  show unNan (stochRawOf bars) 50 = F.fin 50
  unfold stochRawOf
  rw [hnum, hden]
  unfold fdiv
  simp [unNan]

lemma drop_replicate {α : Type} (x : α) :
    ∀ (n m : ℕ), (List.replicate m x).drop n = List.replicate (m - n) x := by
  intro n
  induction n with
  | zero => intro m; simp
  | succ k ih =>
    intro m
    cases m with
    | zero => simp
    | succ m' =>
      rw [List.replicate_succ, List.drop_succ_cons, ih m', Nat.succ_sub_succ]

lemma foldl_min_replicate (n : ℕ) (x : ℚ) : (List.replicate n x).foldl min x = x := by
  induction n with
  | zero => rfl
  | succ m ih => rw [List.replicate_succ, List.foldl_cons, min_self]; exact ih

lemma listMinQ_replicate (n : ℕ) (x : ℚ) : listMinQ (List.replicate (n + 1) x) = x := by
  rw [List.replicate_succ]
  show (List.replicate n x).foldl min x = x
  exact foldl_min_replicate n x

lemma foldl_max_replicate (n : ℕ) (x : ℚ) : (List.replicate n x).foldl max x = x := by
  induction n with
  | zero => rfl
  | succ m ih => rw [List.replicate_succ, List.foldl_cons, max_self]; exact ih

lemma listMaxQ_replicate (n : ℕ) (x : ℚ) : listMaxQ (List.replicate (n + 1) x) = x := by
  rw [List.replicate_succ]
  show (List.replicate n x).foldl max x = x
  exact foldl_max_replicate n x

/-- A completely flat bar: high = low = close, the degenerate window. -/
def flatBar : Bar :=
  { timestamp := "2024-01-02T00:00:00", opn := 100, high := 100, low := 100,
    close := 100, volume := 10 }

def flatHist : List Bar := List.replicate 50 flatBar

/-- Witness for C6 at a 50-bar flat history (zero stochastic range). -/
theorem c6_stochastic_degenerate_witness :
    (50 ≤ flatHist.length ∧ (∀ b ∈ flatHist, b.low ≤ b.close ∧ b.close ≤ b.high) ∧
      stochHHOf flatHist = stochLLOf flatHist) ∧
    (featuresOf sqTest "FLAT" flatHist).stochastic = F.fin 50 := by
  have h1 : 50 ≤ flatHist.length := by norm_num [flatHist]
  have h2 : ∀ b ∈ flatHist, b.low ≤ b.close ∧ b.close ≤ b.high := by
    intro b hb
    unfold flatHist at hb
    rw [List.mem_replicate] at hb
    rw [hb.2]
    exact ⟨le_refl _, le_refl _⟩
  have hH : stochHHOf flatHist = 100 := by
    unfold stochHHOf flatHist highsOf lastN
    rw [List.map_replicate, List.length_replicate, drop_replicate]
    exact listMaxQ_replicate 13 flatBar.high
  have hL : stochLLOf flatHist = 100 := by
    unfold stochLLOf flatHist lowsOf lastN
    rw [List.map_replicate, List.length_replicate, drop_replicate]
    exact listMinQ_replicate 13 flatBar.low
  have h3 : stochHHOf flatHist = stochLLOf flatHist := by rw [hH, hL]
  exact ⟨⟨h1, h2, h3⟩, c6_stochastic_degenerate sqTest "FLAT" flatHist h1 h2 h3⟩

lemma zip_replicate_self (x : ℚ) :
    ∀ m : ℕ, (x :: List.replicate m x).zip (List.replicate m x) = List.replicate m (x, x) := by
  intro m
  induction m with
  | zero => rfl
  | succ k ih =>
    rw [List.replicate_succ (n := k)]
    rw [List.zip_cons_cons]
    rw [List.replicate_succ]
    exact congrArg (List.cons (x, x)) ih

lemma diffsOf_replicate (m : ℕ) (x : ℚ) :
    diffsOf (List.replicate (m + 1) x) = List.replicate m 0 := by
  unfold diffsOf
  rw [List.replicate_succ, List.tail_cons, zip_replicate_self x m, List.map_replicate]
  simp

lemma mean_lastN_replicate_zero (k w : ℕ) :
    meanQ (lastN w (List.replicate k (0 : ℚ))) = 0 := by
  unfold lastN meanQ
  rw [List.length_replicate, drop_replicate, List.sum_replicate]
  simp

/-- C7 counterexample: a 50-bar constant-price history has rolling average
loss 0 over the RSI window, yet the emitted RSI is the NaN-default 50.0, not
the claimed maximal 100 — because the average gain is also 0, so
`rs = 0/0 = NaN` and `100 - 100/(1+NaN)` is NaN. -/
theorem c7_counterexample :
    avgLossOf flatHist = 0 ∧ (featuresOf sqTest "FLAT" flatHist).rsi = F.fin 50 ∧
    F.fin (50 : ℚ) ≠ F.fin 100 := by
  have hc : closesOf flatHist = List.replicate 50 (100 : ℚ) := by
    unfold closesOf flatHist
    rw [List.map_replicate]
    rfl
  have hzl : (List.replicate 49 (0 : ℚ)).map (fun d => if d < 0 then -d else 0) =
      List.replicate 49 0 := by
    rw [List.map_replicate]
    norm_num
  have hzg : (List.replicate 49 (0 : ℚ)).map (fun d => if 0 < d then d else 0) =
      List.replicate 49 0 := by
    rw [List.map_replicate]
    norm_num
  have hl : avgLossOf flatHist = 0 := by
    unfold avgLossOf lossesOf
    rw [hc, diffsOf_replicate 49 100, hzl, mean_lastN_replicate_zero]
  have hg : avgGainOf flatHist = 0 := by
    unfold avgGainOf gainsOf
    rw [hc, diffsOf_replicate 49 100, hzg, mean_lastN_replicate_zero]
  refine ⟨hl, ?_, by norm_num [F.fin.injEq]⟩
  show unNan (rsiRawOf flatHist) 50 = F.fin 50
  unfold rsiRawOf fdiv
  rw [hl, hg]
  simp [F.add, F.div, F.sub, F.neg, unNan]

/-- C7 amended: when the rolling average loss is zero AND the rolling average
gain is positive, `rs = gain/0 = +inf` and the RSI float chain evaluates to
exactly 100 without an exception; when both averages are zero the value is NaN
and the emitted feature falls back to the default 50.0 (see the
counterexample). -/
theorem c7_amended_rsi (sq : ℚ → ℚ) (sym : String) (bars : List Bar)
    (hloss : avgLossOf bars = 0) (hgain : 0 < avgGainOf bars) :
    (featuresOf sq sym bars).rsi = F.fin 100 := by
  have hne : avgGainOf bars ≠ 0 := ne_of_gt hgain
  show unNan (rsiRawOf bars) 50 = F.fin 100
  unfold rsiRawOf fdiv
  rw [hloss]
  simp [hne, hgain, F.add, F.div, F.sub, F.neg, unNan]

/-- Two rising bars: one unit gain, no losses in the window. -/
def upBars : List Bar :=
  [{ timestamp := "2024-01-02T00:00:00", opn := 100, high := 101, low := 99,
     close := 100, volume := 10 },
   { timestamp := "2024-01-03T00:00:00", opn := 100, high := 102, low := 100,
     close := 101, volume := 10 }]

/-- Witness for C7 (amended) at a concrete rising history. -/
theorem c7_amended_rsi_witness :
    (avgLossOf upBars = 0 ∧ 0 < avgGainOf upBars) ∧
    (featuresOf sqTest "UP" upBars).rsi = F.fin 100 := by
  have hl : avgLossOf upBars = 0 := by
    unfold avgLossOf lossesOf diffsOf closesOf upBars lastN meanQ
    norm_num
  have hg : 0 < avgGainOf upBars := by
    unfold avgGainOf gainsOf diffsOf closesOf upBars lastN meanQ
    norm_num
  exact ⟨⟨hl, hg⟩, c7_amended_rsi sqTest "UP" upBars hl hg⟩

lemma msGo_timestamp (classes predCls : List ℤ) (preds : List (List ℚ)) (ts : String) :
    ∀ (i : ℕ) (feats : List MarketFeatures),
      ∀ s ∈ msGo classes predCls preds ts i feats, s.timestamp = ts := by
  intro i feats
  induction feats generalizing i with
  | nil => intro s hs; exact absurd hs (List.not_mem_nil _)
  | cons f rest ih =>
    intro s hs
    rcases List.mem_cons.mp hs with h | h
    · rw [h]; rfl
    · exact ih (i + 1) s h

lemma tpGo_mem (classes predCls : List ℤ) (preds : List (List ℚ)) :
    ∀ (i : ℕ) (feats : List RealFeature),
      ∀ s ∈ tpGo classes predCls preds i feats,
        ∃ f ∈ feats, s.timestamp = f.timestamp ∧ s.symbol = f.symbol := by
  intro i feats
  induction feats generalizing i with
  | nil => intro s hs; exact absurd hs (List.not_mem_nil _)
  | cons f rest ih =>
    intro s hs
    rcases List.mem_cons.mp hs with h | h
    · exact ⟨f, List.mem_cons_self f rest, by rw [h]; exact ⟨rfl, rfl⟩⟩
    · obtain ⟨g, hg, hts⟩ := ih (i + 1) s h
      exact ⟨g, List.mem_cons_of_mem f hg, hts⟩

/-- C9 amended: in ml-service/main.py one `utcnow().isoformat()` string is
taken before the loop and shared by every signal of the batch and by the
response envelope; but in TradingPredictor.predict each signal carries its own
row's `row['timestamp']` — the symbol's latest bar time — so a batch only
shares a timestamp when all symbols happen to share a latest bar time. -/
theorem c9_amended_timestamps :
    (∀ (classes predCls : List ℤ) (preds : List (List ℚ))
        (feats : List MarketFeatures) (ts : String),
      (∀ s ∈ mlServicePredict classes predCls preds feats ts, s.timestamp = ts) ∧
      (mlServiceResponse classes predCls preds feats ts).timestamp = ts) ∧
    (∀ (classes predCls : List ℤ) (preds : List (List ℚ)) (feats : List RealFeature),
      ∀ s ∈ tpPredict classes predCls preds feats,
        ∃ f ∈ feats, s.timestamp = f.timestamp ∧ s.symbol = f.symbol) := by
  constructor
  · intro classes predCls preds feats ts
    exact ⟨msGo_timestamp classes predCls preds ts 0 feats, rfl⟩
  · intro classes predCls preds feats
    exact tpGo_mem classes predCls preds 0 feats

/-- Second symbol of the C9 counterexample batch: a later latest-bar time. -/
def rfDay3 : RealFeature :=
  { rfBB12 with symbol := "TSLA", timestamp := "2024-01-03T00:00:00" }

/-- C9 counterexample: one TradingPredictor batch with two symbols whose
latest bars differ emits two signals with DIFFERENT timestamp strings, so no
single batch timestamp is shared. -/
theorem c9_counterexample :
    ((tpPredict [-1, 0, 1] [0, 0] [[1 / 5, 3 / 5, 1 / 5], [1 / 5, 3 / 5, 1 / 5]]
        [rfBB12, rfDay3]).map (fun s => s.timestamp)) =
      ["2024-01-02T00:00:00", "2024-01-03T00:00:00"] ∧
    ("2024-01-02T00:00:00" : String) ≠ "2024-01-03T00:00:00" := by
  constructor
  · simp [tpPredict, tpGo, tpSignalOf, rfBB12, rfDay3]
  · decide

def msSig0 : MLSignal := mlSignalOf [-1, 0, 1] 1 [1 / 5, 1 / 5, 3 / 5] "TS" mfHold

/-- Witness for C9 (amended) at a concrete one-symbol main.py batch. -/
theorem c9_amended_timestamps_witness :
    msSig0 ∈ mlServicePredict [-1, 0, 1] [1] [[1 / 5, 1 / 5, 3 / 5]] [mfHold] "TS" ∧
    msSig0.timestamp = "TS" := by
  have hm : msSig0 ∈ mlServicePredict [-1, 0, 1] [1] [[1 / 5, 1 / 5, 3 / 5]] [mfHold] "TS" := by
    simp [msSig0, mlServicePredict, msGo, List.getD]
  exact ⟨hm,
    (c9_amended_timestamps.1 [-1, 0, 1] [1] [[1 / 5, 1 / 5, 3 / 5]] [mfHold] "TS").1
      msSig0 hm⟩

/-! Lemmas for C8: finiteness of every emitted feature field. -/

lemma sum_zero_nonneg (xs : List ℚ) (h : ∀ x ∈ xs, 0 ≤ x) (hz : xs.sum = 0) :
    ∀ x ∈ xs, x = 0 := by
  induction xs with
  | nil => intro x hx; exact absurd hx (List.not_mem_nil _)
  | cons a r ih =>
    have ha : 0 ≤ a := h a (List.mem_cons_self a r)
    have hr : ∀ x ∈ r, 0 ≤ x := fun x hx => h x (List.mem_cons_of_mem a hx)
    have hrs : 0 ≤ r.sum := List.sum_nonneg hr
    rw [List.sum_cons] at hz
    have ha0 : a = 0 := by linarith
    have hr0 : r.sum = 0 := by linarith
    intro x hx
    rcases List.mem_cons.mp hx with h1 | h1
    · rw [h1, ha0]
    · exact ih hr hr0 x h1

lemma meanQ_nonneg (xs : List ℚ) (h : ∀ x ∈ xs, 0 ≤ x) : 0 ≤ meanQ xs :=
  div_nonneg (List.sum_nonneg h) (Nat.cast_nonneg _)

lemma meanQ_pos (xs : List ℚ) (hne : xs ≠ []) (h : ∀ x ∈ xs, 0 < x) : 0 < meanQ xs := by
  unfold meanQ
  have hl : 0 < (xs.length : ℚ) := by
    have : 0 < xs.length := List.length_pos.mpr hne
    exact_mod_cast this
  exact div_pos (List.sum_pos xs h hne) hl

lemma meanQ_zero_all (xs : List ℚ) (h : ∀ x ∈ xs, 0 ≤ x) (hne : xs ≠ [])
    (hz : meanQ xs = 0) : ∀ x ∈ xs, x = 0 := by
  unfold meanQ at hz
  have hl : (xs.length : ℚ) ≠ 0 := by
    have : 0 < xs.length := List.length_pos.mpr hne
    positivity
  rcases div_eq_zero_iff.mp hz with hs | hs
  · exact sum_zero_nonneg xs h hs
  · exact absurd hs hl

lemma lastN_subset {α : Type} (w : ℕ) (xs : List α) : lastN w xs ⊆ xs :=
  List.drop_subset _ _

lemma lastN_length {α : Type} (w : ℕ) (xs : List α) (h : w ≤ xs.length) :
    (lastN w xs).length = w := by
  unfold lastN
  rw [List.length_drop]
  omega

lemma fdiv_isFinite (a b : ℚ) (hb : b ≠ 0) : (fdiv a b).isFinite = true := by
  unfold fdiv
  rw [if_neg hb]
  rfl

lemma fdiv_zero_zero : fdiv 0 0 = F.nan := by
  unfold fdiv
  norm_num

lemma getD_mem_q : ∀ (xs : List ℚ) (i : ℕ), i < xs.length → xs.getD i 0 ∈ xs := by
  intro xs
  induction xs with
  | nil => intro i h; simp at h
  | cons a r ih =>
    intro i h
    cases i with
    | zero => exact List.mem_cons_self a r
    | succ j =>
      rw [List.getD_cons_succ]
      exact List.mem_cons_of_mem a (ih j (by simpa using h))

lemma sampleVar_nonneg (xs : List ℚ) (h2 : 2 ≤ xs.length) : 0 ≤ sampleVar xs := by
  unfold sampleVar
  apply div_nonneg
  · apply List.sum_nonneg
    intro x hx
    rcases List.mem_map.mp hx with ⟨y, _, hy⟩
    rw [← hy]
    positivity
  · have : (2 : ℚ) ≤ (xs.length : ℚ) := by exact_mod_cast h2
    linarith

lemma sampleVar_zero_eq_mean (xs : List ℚ) (h2 : 2 ≤ xs.length)
    (hv : sampleVar xs = 0) : ∀ x ∈ xs, x = meanQ xs := by
  unfold sampleVar at hv
  have hd : ((xs.length : ℚ) - 1) ≠ 0 := by
    have : (2 : ℚ) ≤ (xs.length : ℚ) := by exact_mod_cast h2
    intro h
    linarith
  have hs : (xs.map (fun x => (x - meanQ xs) ^ 2)).sum = 0 := by
    rcases div_eq_zero_iff.mp hv with hs | hs
    · exact hs
    · exact absurd hs hd
  have hall := sum_zero_nonneg (xs.map (fun x => (x - meanQ xs) ^ 2))
    (by
      intro x hx
      rcases List.mem_map.mp hx with ⟨y, _, hy⟩
      rw [← hy]
      positivity) hs
  intro x hx
  have hsq : (x - meanQ xs) ^ 2 = 0 :=
    hall _ (List.mem_map_of_mem (fun x => (x - meanQ xs) ^ 2) hx)
  have := pow_eq_zero_iff (n := 2) (by norm_num) |>.mp hsq
  linarith [sub_eq_zero.mp this]

lemma unNan_isFinite_of (x : F) (d : ℚ) (h : x.isFinite = true ∨ x = F.nan) :
    (unNan x d).isFinite = true := by
  rcases h with h | h
  · cases x with
    | fin q => rfl
    | pinf => simp [F.isFinite] at h
    | ninf => simp [F.isFinite] at h
    | nan => rfl
  · rw [h]; rfl

lemma gains_nonneg (c : List ℚ) : ∀ x ∈ gainsOf c, 0 ≤ x := by
  intro x hx
  rcases List.mem_map.mp hx with ⟨d, _, hd⟩
  rw [← hd]
  split_ifs with h
  · exact le_of_lt h
  · exact le_refl 0

lemma losses_nonneg (c : List ℚ) : ∀ x ∈ lossesOf c, 0 ≤ x := by
  intro x hx
  rcases List.mem_map.mp hx with ⟨d, _, hd⟩
  rw [← hd]
  split_ifs with h
  · linarith
  · exact le_refl 0

lemma avgGain_nonneg (bars : List Bar) : 0 ≤ avgGainOf bars :=
  meanQ_nonneg _ (fun x hx => gains_nonneg _ x (lastN_subset _ _ hx))

lemma avgLoss_nonneg (bars : List Bar) : 0 ≤ avgLossOf bars :=
  meanQ_nonneg _ (fun x hx => losses_nonneg _ x (lastN_subset _ _ hx))

/-- The emitted RSI is finite for every bar history: a positive average loss
gives the closed-form value, a zero loss with positive gain hits +inf and
collapses to exactly 100, and 0/0 is NaN which the default replaces. -/
lemma rsi_emitted_finite (bars : List Bar) : (unNan (rsiRawOf bars) 50).isFinite = true := by
  apply unNan_isFinite_of
  have hg := avgGain_nonneg bars
  have hl := avgLoss_nonneg bars
  unfold rsiRawOf fdiv
  rcases eq_or_lt_of_le hl with hl0 | hlp
  · rw [← hl0]
    rcases eq_or_lt_of_le hg with hg0 | hgp
    · right
      rw [← hg0]
      simp [F.add, F.div, F.sub, F.neg]
    · left
      have hne : avgGainOf bars ≠ 0 := ne_of_gt hgp
      simp [hne, hgp, F.add, F.div, F.sub, F.neg, F.isFinite]
  · left
    have hne : avgLossOf bars ≠ 0 := ne_of_gt hlp
    rw [if_neg hne]
    have hq : 0 ≤ avgGainOf bars / avgLossOf bars := div_nonneg hg (le_of_lt hlp)
    have hpos : (0 : ℚ) < 1 + avgGainOf bars / avgLossOf bars := by linarith
    simp [F.add, F.div, F.sub, F.neg, F.isFinite, ne_of_gt hpos]

lemma closes_length (bars : List Bar) : (closesOf bars).length = bars.length := by
  unfold closesOf
  exact List.length_map _ _

lemma closes_ne_nil (bars : List Bar) (h50 : 50 ≤ bars.length) : closesOf bars ≠ [] := by
  intro h
  have := closes_length bars
  rw [h] at this
  simp at this
  omega

lemma closes_pos (bars : List Bar)
    (hwf : ∀ b ∈ bars, 0 < b.low ∧ b.low ≤ b.close ∧ b.close ≤ b.high ∧ 0 ≤ b.volume) :
    ∀ x ∈ closesOf bars, 0 < x := by
  intro x hx
  rcases List.mem_map.mp hx with ⟨b, hb, hbx⟩
  obtain ⟨h1, h2, _, _⟩ := hwf b hb
  rw [← hbx]
  linarith

lemma bbMid_pos (bars : List Bar) (h50 : 50 ≤ bars.length)
    (hc : ∀ x ∈ closesOf bars, 0 < x) : 0 < bbMidOf bars := by
  unfold bbMidOf
  apply meanQ_pos
  · exact lastN_ne_nil 20 _ (by norm_num) (closes_ne_nil bars h50)
  · intro x hx
    exact hc x (lastN_subset _ _ hx)

lemma bb_window_length (bars : List Bar) (h50 : 50 ≤ bars.length) :
    (lastN 20 (closesOf bars)).length = 20 := by
  apply lastN_length
  rw [closes_length]
  omega

/-- Emitted bb_width is finite: the middle band is a mean of positive closes. -/
lemma bb_width_emitted_finite (sq : ℚ → ℚ) (bars : List Bar) (h50 : 50 ≤ bars.length)
    (hc : ∀ x ∈ closesOf bars, 0 < x) :
    (unNan (bbWidthRawOf sq bars) bb_width_default).isFinite = true := by
  apply unNan_isFinite_of
  left
  unfold bbWidthRawOf
  exact fdiv_isFinite _ _ (ne_of_gt (bbMid_pos bars h50 hc))

/-- bb_position is finite unless the 20-bar window is constant, in which case
it is 0/0 = NaN (and the default replaces it). -/
lemma bb_pos_fin_or_nan (sq : ℚ → ℚ) (bars : List Bar) (h50 : 50 ≤ bars.length)
    (hsq0 : ∀ q : ℚ, 0 ≤ q → sq q = 0 → q = 0) :
    (bbPosRawOf sq bars).isFinite = true ∨ bbPosRawOf sq bars = F.nan := by
  have hlen20 := bb_window_length bars h50
  have hvar : 0 ≤ bbVarOf bars := sampleVar_nonneg _ (by rw [hlen20]; norm_num)
  have hUL : bbUpperOf sq bars - bbLowerOf sq bars = 4 * bbStdOf sq bars := by
    unfold bbUpperOf bbLowerOf
    ring
  by_cases hs : bbStdOf sq bars = 0
  · right
    have hv0 : bbVarOf bars = 0 := hsq0 _ hvar hs
    have hall := sampleVar_zero_eq_mean _ (by rw [hlen20]; norm_num) hv0
    have hcne := closes_ne_nil bars h50
    have hwne : lastN 20 (closesOf bars) ≠ [] :=
      lastN_ne_nil 20 _ (by norm_num) hcne
    have hcl : lastQ (closesOf bars) ∈ lastN 20 (closesOf bars) := by
      rw [← lastQ_lastN 20 (closesOf bars) (by norm_num) hcne]
      exact lastQ_mem _ hwne
    have hceq : lastQ (closesOf bars) = bbMidOf bars := hall _ hcl
    have hlow : bbLowerOf sq bars = bbMidOf bars := by
      unfold bbLowerOf
      rw [hs]
      ring
    unfold bbPosRawOf
    rw [hUL, hs, hlow, hceq, sub_self, mul_zero]
    exact fdiv_zero_zero
  · left
    unfold bbPosRawOf
    rw [hUL]
    refine fdiv_isFinite _ _ ?_
    intro h
    rcases mul_eq_zero.mp h with h4 | h0
    · norm_num at h4
    · exact hs h0

lemma emaTrend_flag (bars : List Bar) : emaTrendOf bars = 0 ∨ emaTrendOf bars = 1 := by
  unfold emaTrendOf
  split_ifs
  · right; rfl
  · left; rfl

lemma vols_length (bars : List Bar) : (volsOf bars).length = bars.length := by
  unfold volsOf
  exact List.length_map _ _

lemma vols_ne_nil (bars : List Bar) (h50 : 50 ≤ bars.length) : volsOf bars ≠ [] := by
  intro h
  have := vols_length bars
  rw [h] at this
  simp at this
  omega

lemma vols_nonneg (bars : List Bar)
    (hwf : ∀ b ∈ bars, 0 < b.low ∧ b.low ≤ b.close ∧ b.close ≤ b.high ∧ 0 ≤ b.volume) :
    ∀ x ∈ volsOf bars, 0 ≤ x := by
  intro x hx
  rcases List.mem_map.mp hx with ⟨b, hb, hbx⟩
  obtain ⟨_, _, _, h4⟩ := hwf b hb
  rw [← hbx]
  exact h4

/-- volume_ratio is finite unless the whole 20-bar volume window is zero, in
which case the current volume is zero too and the value is 0/0 = NaN. -/
lemma vol_ratio_fin_or_nan (bars : List Bar) (h50 : 50 ≤ bars.length)
    (hv : ∀ x ∈ volsOf bars, 0 ≤ x) :
    (volRatioRawOf bars).isFinite = true ∨ volRatioRawOf bars = F.nan := by
  have hvne := vols_ne_nil bars h50
  have hwne : lastN 20 (volsOf bars) ≠ [] := lastN_ne_nil 20 _ (by norm_num) hvne
  have havg : 0 ≤ meanQ (lastN 20 (volsOf bars)) :=
    meanQ_nonneg _ (fun x hx => hv x (lastN_subset _ _ hx))
  rcases eq_or_lt_of_le havg with h0 | hpos
  · right
    have hall := meanQ_zero_all (lastN 20 (volsOf bars))
      (fun x hx => hv x (lastN_subset _ _ hx)) hwne h0.symm
    have hlm : lastQ (volsOf bars) ∈ lastN 20 (volsOf bars) := by
      rw [← lastQ_lastN 20 (volsOf bars) (by norm_num) hvne]
      exact lastQ_mem _ hwne
    have hvl : lastQ (volsOf bars) = 0 := hall _ hlm
    unfold volRatioRawOf
    rw [hvl, ← h0]
    exact fdiv_zero_zero
  · left
    unfold volRatioRawOf
    exact fdiv_isFinite _ _ (ne_of_gt hpos)

/-- Core of the degenerate stochastic case: when the window range is zero the
latest close coincides with the window extreme. -/
lemma stoch_lastclose_eq (bars : List Bar) (hne : bars ≠ [])
    (hwfle : ∀ b ∈ bars, b.low ≤ b.close ∧ b.close ≤ b.high)
    (hdeg : stochHHOf bars = stochLLOf bars) :
    lastQ (closesOf bars) = stochLLOf bars := by
  have hlne : lowsOf bars ≠ [] := by
    unfold lowsOf
    simpa using hne
  have hhne : highsOf bars ≠ [] := by
    unfold highsOf
    simpa using hne
  have hlm : lastQ (lowsOf bars) ∈ lastN 14 (lowsOf bars) := by
    rw [← lastQ_lastN 14 (lowsOf bars) (by norm_num) hlne]
    exact lastQ_mem _ (lastN_ne_nil 14 _ (by norm_num) hlne)
  have hhm : lastQ (highsOf bars) ∈ lastN 14 (highsOf bars) := by
    rw [← lastQ_lastN 14 (highsOf bars) (by norm_num) hhne]
    exact lastQ_mem _ (lastN_ne_nil 14 _ (by norm_num) hhne)
  have h1 : stochLLOf bars ≤ lastQ (lowsOf bars) := listMinQ_le hlm
  have h2 : lastQ (highsOf bars) ≤ stochHHOf bars := le_listMaxQ hhm
  have hlast := getLastD_mem bars hne barDefault
  obtain ⟨hl, hh⟩ := hwfle _ hlast
  have hlq : lastQ (lowsOf bars) = (bars.getLastD barDefault).low :=
    lastQ_map_bar (fun b => b.low) bars hne barDefault
  have hhq : lastQ (highsOf bars) = (bars.getLastD barDefault).high :=
    lastQ_map_bar (fun b => b.high) bars hne barDefault
  have hcq : lastQ (closesOf bars) = (bars.getLastD barDefault).close :=
    lastQ_map_bar (fun b => b.close) bars hne barDefault
  have hlo : stochLLOf bars ≤ lastQ (closesOf bars) := by
    rw [hcq]
    exact le_trans (hlq ▸ h1) hl
  have hup : lastQ (closesOf bars) ≤ stochLLOf bars := by
    rw [← hdeg, hcq]
    exact le_trans hh (hhq ▸ h2)
  exact le_antisymm hup hlo

/-- stochastic is finite unless the window range is zero, where it is NaN. -/
lemma stoch_fin_or_nan (bars : List Bar) (h50 : 50 ≤ bars.length)
    (hwfle : ∀ b ∈ bars, b.low ≤ b.close ∧ b.close ≤ b.high) :
    (stochRawOf bars).isFinite = true ∨ stochRawOf bars = F.nan := by
  by_cases hd : stochHHOf bars - stochLLOf bars = 0
  · right
    have hne : bars ≠ [] := by
      intro h
      rw [h] at h50
      simp at h50
    have hdeg : stochHHOf bars = stochLLOf bars := sub_eq_zero.mp hd
    have heq := stoch_lastclose_eq bars hne hwfle hdeg
    unfold stochRawOf
    rw [heq, sub_self, mul_zero, hd]
    exact fdiv_zero_zero
  · left
    unfold stochRawOf
    exact fdiv_isFinite _ _ hd

lemma pct_emitted_finite (bars : List Bar) (h50 : 50 ≤ bars.length)
    (hc : ∀ x ∈ closesOf bars, 0 < x) (k : ℕ) :
    (pctChangeRawOf k bars).isFinite = true := by
  unfold pctChangeRawOf
  have hidx : bars.length - 1 - k < (closesOf bars).length := by
    rw [closes_length]
    omega
  have hmem := getD_mem_q (closesOf bars) _ hidx
  have hpos := hc _ hmem
  unfold fdiv
  rw [if_neg (ne_of_gt hpos)]
  simp [F.sub, F.add, F.neg, F.isFinite]

lemma volat_emitted_finite (sq : ℚ → ℚ) (bars : List Bar)
    (hc : ∀ x ∈ closesOf bars, 0 < x) :
    (volatilityRawOf sq bars).isFinite = true := by
  unfold volatilityRawOf stdFOfF
  have hall : (lastN 20 (pctChanges (closesOf bars))).all F.isFinite = true := by
    rw [List.all_eq_true]
    intro x hx
    have hx' := lastN_subset _ _ hx
    rcases List.mem_map.mp hx' with ⟨p, hp, hpx⟩
    rcases p with ⟨a, b⟩
    have hma := (List.of_mem_zip hp).1
    have hpa : 0 < a := hc a hma
    rw [← hpx]
    unfold fdiv
    rw [if_neg (ne_of_gt hpa)]
    simp [F.sub, F.add, F.neg, F.isFinite]
  rw [if_pos hall]
  rfl

/-- C8 counterexample: the code's fallback constant for volatility_20
(predict_with_real_data.py line 149) is 0.0 — NOT a small positive constant —
while bb_width's fallback (line 141) is 0.02; the claim's description of the
volatility default is false. -/
theorem c8_counterexample :
    volatility_default = 0 ∧ ¬ (0 < volatility_default) ∧ 0 < bb_width_default := by
  norm_num [volatility_default, bb_width_default]

/-- Conjunction asserted by the amended C8: every float field of an emitted
feature record is finite, ema_trend is a 0/1 flag, and each NaN falls back to
the code's documented constant (50.0 for rsi/stochastic, 0.5 for bb_position,
1.0 for volume_ratio, 0.02 for bb_width and 0.0 — not positive — for
volatility_20). -/
def featureFiniteDefaults (sq : ℚ → ℚ) (sym : String) (bars : List Bar) : Prop :=
  ((featuresOf sq sym bars).rsi.isFinite = true ∧
   (featuresOf sq sym bars).macd.isFinite = true ∧
   (featuresOf sq sym bars).macd_histogram.isFinite = true ∧
   (featuresOf sq sym bars).bb_width.isFinite = true ∧
   (featuresOf sq sym bars).bb_position.isFinite = true ∧
   ((featuresOf sq sym bars).ema_trend = 0 ∨ (featuresOf sq sym bars).ema_trend = 1) ∧
   (featuresOf sq sym bars).volume_ratio.isFinite = true ∧
   (featuresOf sq sym bars).stochastic.isFinite = true ∧
   (featuresOf sq sym bars).price_change_1d.isFinite = true ∧
   (featuresOf sq sym bars).price_change_5d.isFinite = true ∧
   (featuresOf sq sym bars).price_change_10d.isFinite = true ∧
   (featuresOf sq sym bars).volatility_20.isFinite = true) ∧
  ((rsiRawOf bars = F.nan → (featuresOf sq sym bars).rsi = F.fin 50) ∧
   (stochRawOf bars = F.nan → (featuresOf sq sym bars).stochastic = F.fin 50) ∧
   (bbPosRawOf sq bars = F.nan → (featuresOf sq sym bars).bb_position = F.fin (1 / 2)) ∧
   (volRatioRawOf bars = F.nan → (featuresOf sq sym bars).volume_ratio = F.fin 1) ∧
   (bbWidthRawOf sq bars = F.nan →
     (featuresOf sq sym bars).bb_width = F.fin bb_width_default) ∧
   (volatilityRawOf sq bars = F.nan →
     (featuresOf sq sym bars).volatility_20 = F.fin volatility_default))

/-- C8 amended: for a well-formed history of at least 50 bars (positive lows,
low ≤ close ≤ high, non-negative volume) every float field of the emitted
record is finite and every NaN is replaced by the code's constant — with
volatility_20's constant being 0.0, not a small positive number. The `sq`
hypothesis is the one property of real sqrt used: a vanishing sqrt forces a
vanishing variance. -/
theorem c8_amended_finite_defaults (sq : ℚ → ℚ)
    (hsq0 : ∀ q : ℚ, 0 ≤ q → sq q = 0 → q = 0)
    (sym : String) (bars : List Bar) (h50 : 50 ≤ bars.length)
    (hwf : ∀ b ∈ bars, 0 < b.low ∧ b.low ≤ b.close ∧ b.close ≤ b.high ∧ 0 ≤ b.volume) :
    featureFiniteDefaults sq sym bars := by
  have hc := closes_pos bars hwf
  have hwfle : ∀ b ∈ bars, b.low ≤ b.close ∧ b.close ≤ b.high := by
    intro b hb
    obtain ⟨_, h2, h3, _⟩ := hwf b hb
    exact ⟨h2, h3⟩
  unfold featureFiniteDefaults
  refine ⟨⟨?_, rfl, rfl, ?_, ?_, ?_, ?_, ?_, ?_, ?_, ?_, ?_⟩, ?_, ?_, ?_, ?_, ?_, ?_⟩
  · exact rsi_emitted_finite bars
  · exact bb_width_emitted_finite sq bars h50 hc
  · exact unNan_isFinite_of _ _ (bb_pos_fin_or_nan sq bars h50 hsq0)
  · exact emaTrend_flag bars
  · exact unNan_isFinite_of _ _ (vol_ratio_fin_or_nan bars h50 (vols_nonneg bars hwf))
  · exact unNan_isFinite_of _ _ (stoch_fin_or_nan bars h50 hwfle)
  · exact unNan_isFinite_of _ _ (Or.inl (pct_emitted_finite bars h50 hc 1))
  · exact unNan_isFinite_of _ _ (Or.inl (pct_emitted_finite bars h50 hc 5))
  · exact unNan_isFinite_of _ _ (Or.inl (pct_emitted_finite bars h50 hc 10))
  · exact unNan_isFinite_of _ _ (Or.inl (volat_emitted_finite sq bars hc))
  · intro h
    show unNan (rsiRawOf bars) 50 = F.fin 50
    rw [h]
    rfl
  · intro h
    show unNan (stochRawOf bars) 50 = F.fin 50
    rw [h]
    rfl
  · intro h
    show unNan (bbPosRawOf sq bars) (1 / 2) = F.fin (1 / 2)
    rw [h]
    rfl
  · intro h
    show unNan (volRatioRawOf bars) 1 = F.fin 1
    rw [h]
    rfl
  · intro h
    show unNan (bbWidthRawOf sq bars) bb_width_default = F.fin bb_width_default
    rw [h]
    rfl
  · intro h
    show unNan (volatilityRawOf sq bars) volatility_default = F.fin volatility_default
    rw [h]
    rfl

/-- Witness for C8 (amended) at the concrete flat 50-bar history. -/
theorem c8_amended_finite_defaults_witness :
    (50 ≤ flatHist.length ∧
      (∀ b ∈ flatHist, 0 < b.low ∧ b.low ≤ b.close ∧ b.close ≤ b.high ∧ 0 ≤ b.volume)) ∧
    featureFiniteDefaults sqTest "FLAT" flatHist := by
  have hsq0 : ∀ q : ℚ, 0 ≤ q → sqTest q = 0 → q = 0 := by
    intro q _ h
    by_cases hq : q = 0
    · exact hq
    · unfold sqTest at h
      rw [if_neg hq] at h
      norm_num at h
  have h50 : 50 ≤ flatHist.length := by norm_num [flatHist]
  have hwf : ∀ b ∈ flatHist, 0 < b.low ∧ b.low ≤ b.close ∧ b.close ≤ b.high ∧ 0 ≤ b.volume := by
    intro b hb
    unfold flatHist at hb
    rw [List.mem_replicate] at hb
    rw [hb.2]
    refine ⟨by norm_num [flatBar], le_refl _, le_refl _, by norm_num [flatBar]⟩
  exact ⟨⟨h50, hwf⟩, c8_amended_finite_defaults sqTest hsq0 "FLAT" flatHist h50 hwf⟩
